import Mathlib

/-!
Shallow embedding of `reflectivity_ui/interfaces/data_manager.py` (class
`DataManager`) and proofs about it.

Conventions used throughout:

* Python floats appearing only in comparisons (two-theta angles, q-values,
  intensities) are modelled as rationals `ℚ`.
* `NexusData` objects are external to the file under verification; a measurement
  is modelled by the fields the `DataManager` code reads, plus a `mid : Nat`
  allocation counter standing for Python object identity.
* Code that can raise is modelled with `Except Unit`; `Except.error ()` stands
  for an uncaught Python exception, `Except.ok` for a normal return (with
  `Option` for `None` results).
* External collaborators (`FilePath` normalization, the instrument match
  predicate, the loader) are taken as function parameters, so every theorem
  quantifies over their behaviour.
-/

/-- `DataManager.MAX_CACHE` (data_manager.py line 22). -/
def MAX_CACHE : Nat := 50

/-- Run identifiers are sometimes integers and sometimes opaque string tokens
(`item.number`, `configuration.normalization`). -/
inductive RunId where
  | int : Int → RunId
  | str : String → RunId
deriving DecidableEq, Repr

/-- Decimal digit accumulator for the string case of Python's `int()`:
consumes characters, failing on the first non-digit. -/
def digitsToNat (acc : Nat) : List Char → Option Nat
  | [] => some acc
  | c :: cs => if c.isDigit then digitsToNat (acc * 10 + (c.toNat - 48)) cs else none

/-- Python's `int()` applied to a string: an optional minus sign followed by at
least one decimal digit, anything else raises (`none`). -/
def pyIntStr (s : String) : Option Int :=
  match s.data with
  | [] => none
  | '-' :: cs =>
    match cs with
    | [] => none
    | _ => (digitsToNat 0 cs).map (fun n => -(n : Int))
  | cs => (digitsToNat 0 cs).map (fun n => (n : Int))

/-- Python's `int(x)` builtin applied to a run identifier: an integer converts
to itself, a string parses if it is a decimal literal, otherwise `int` raises
(`none`). -/
def pyInt : RunId → Option Int
  | .int n => some n
  | .str s => pyIntStr s

/-- The `try: x = int(v) except (ValueError, TypeError): x = v` idiom of
`DataManager._find_direct_beam` (lines 378-387): coerce to an integer when
possible, keep the raw token otherwise. -/
def coerceId (t : RunId) : RunId :=
  match pyInt t with
  | some n => .int n
  | none => t

/-- The run-identifier comparison `item_number == _run_number` performed by
`DataManager._find_direct_beam` (line 388) after both sides went through the
`int`-or-raw coercion. -/
def idMatch (a b : RunId) : Bool := coerceId a == coerceId b

/-- One entry of `DataManager.direct_beam_list`, restricted to the fields read
by `_find_direct_beam` and `find_best_direct_beam`: its run identifier
`item.number` and the key set of `item.cross_sections`. -/
structure DBItem where
  number : RunId
  xs_keys : List String
deriving DecidableEq, Repr

/-- `DataManager._find_direct_beam` (lines 376-397), the part after the
`configuration.normalization is not None` guard: scan `direct_beam_list`, and
for every entry whose (coerced) run identifier equals the (coerced) configured
normalization identifier and which has at least one cross section, remember the
entry; the last match wins because the Python loop does not break. Returns the
matched entry, `none` when the guard fails or nothing matches. -/
def find_direct_beam (norm : Option RunId) (dbl : List DBItem) : Option DBItem :=
  match norm with
  | none => none
  | some nz =>
    dbl.foldl
      (fun acc item =>
        if idMatch item.number nz = true ∧ 1 ≤ item.xs_keys.length then some item else acc)
      none

/-- Strict pass of `DataManager.find_best_direct_beam` (lines 517-526).
State carried through the loop: `closest` and the loop-local `item_number`
(whose last value leaks into the second pass in the Python code).
`item_number = int(item.number)` happens unconditionally and raises
(`Except.error`) on a non-parseable identifier. `mp item skip_slits` stands for
`instrument.direct_beam_match(active_channel, first channel of item, skip_slits)`
and `a` for `RunNumbers(active_channel.number).numbers[0]`. -/
def strict_pass (mp : DBItem → Bool → Bool) (a : Int) :
    List DBItem → Option Int → Option Int → Except Unit (Option Int × Option Int)
  | [], closest, last_n => .ok (closest, last_n)
  | item :: rest, closest, _ =>
    match pyInt item.number with
    | none => .error ()
    | some n =>
      let closest' :=
        if 0 < item.xs_keys.length ∧ mp item false = true then
          match closest with
          | none => some n
          | some c => if |n - a| < |c - a| then some n else some c
        else closest
      strict_pass mp a rest closest' (some n)

/-- Relaxed (`skip_slits=True`) pass of `DataManager.find_best_direct_beam`
(lines 528-540). The Python loop body never reassigns `item_number`, so every
iteration uses the stale value left over from the last iteration of the strict
pass; that stale value is the `stale` parameter here and is what gets stored in
`closest`. -/
def relaxed_pass (mp : DBItem → Bool → Bool) (a : Int) :
    List DBItem → Option Int → Option Int → Option Int
  | [], closest, _ => closest
  | item :: rest, closest, stale =>
    let closest' :=
      if 0 < item.xs_keys.length ∧ mp item true = true then
        match closest with
        | none => stale
        | some c =>
          match stale with
          | none => some c
          | some n => if |n - a| < |c - a| then some n else some c
      else closest
    relaxed_pass mp a rest closest' stale

/-- `DataManager.find_best_direct_beam` (lines 507-543): strict pass, then, only
if it found nothing, the relaxed pass; the chosen run number (the value passed
to `set_parameter("normalization", closest)`, with `none` for the `return False`
path) is returned. `set_parameter` itself lives in the external `NexusData`. -/
def find_best_direct_beam (mp : DBItem → Bool → Bool) (a : Int) (dbl : List DBItem) :
    Except Unit (Option Int) := do
  let st ← strict_pass mp a dbl none none
  match st.1 with
  | some c => .ok (some c)
  | none => .ok (relaxed_pass mp a dbl none st.2)

/-- Check that an `Except` result is a normal (non-raising) return. -/
def isOkB : Except Unit (Option Int) → Bool
  | .ok _ => true
  | .error _ => false

/-- Concrete instrument predicate for the `find_best_direct_beam` trace:
no candidate matches strictly, only run 10 matches with `skip_slits=True`. -/
def mpEx (it : DBItem) (skip : Bool) : Bool := skip && (it.number == RunId.int 10)

/-- Direct-beam entry with run number 10 for the `find_best_direct_beam` trace. -/
def dbEx1 : DBItem := ⟨RunId.int 10, ["x"]⟩

/-- Direct-beam entry with run number 20 for the `find_best_direct_beam` trace. -/
def dbEx2 : DBItem := ⟨RunId.int 20, ["x"]⟩

/-! ## Measurement cache and `DataManager.load` -/

/-- The part of a `NexusData` object that the cache logic of `DataManager.load`
reads: its canonical `file_path`, plus `mid`, an allocation counter standing
for Python object identity (each `NexusData(...)` construction yields a fresh
one). -/
structure NexusM where
  file_path : String
  mid : Nat
deriving DecidableEq, Repr

/-- The `while len(self._cache) >= self.MAX_CACHE: self._cache.pop(0)` loop of
`DataManager.load` (lines 330-331). -/
def evictLoop : List α → List α
  | [] => []
  | x :: t => if MAX_CACHE ≤ (x :: t).length then evictLoop t else x :: t

/-- Eviction loop followed by `self._cache.append(nexus_data)`
(lines 330-332). -/
def cacheInsert (c : List α) (m : α) : List α := evictLoop c ++ [m]

/-- The caller-supplied `Configuration`, restricted to the field
`DataManager.load` itself mutates. -/
structure Config where
  normalization : Option RunId
deriving DecidableEq, Repr

/-- The `DataManager` state read and written by the cache logic of `load`. -/
structure LoadSt where
  cache : List NexusM
  nexus_data : Option NexusM
  fresh : Nat
deriving DecidableEq, Repr

/-- `DataManager.__init__`: empty cache, no active data. -/
def initState : LoadSt := ⟨[], none, 0⟩

/-- `DataManager.load` (lines 248-336), restricted to cache/active/configuration
effects. `normalize` stands for the external `FilePath(file_path, sort=True).path`
canonicalization. The cache scan takes the first entry with the same canonical
path (the Python loop breaks at the first hit). On a hit without `force` the
cached object becomes active and nothing else changes; otherwise
`configuration.normalization` is set to `None` before the loader
(`NexusData(...)`/`nexus_data.load(...)`, both external) runs, a fresh
measurement is produced, and it is appended to the cache behind the eviction
loop. The reduction/direct-beam list index substitution of the forced path and
the reflectivity computation touch no field modelled here. Returns the new
state, the caller's configuration object, and `is_from_cache`. -/
def load (normalize : String → String) (st : LoadSt) (p : String) (conf : Config)
    (force : Bool) : LoadSt × Config × Bool :=
  let fp := normalize p
  match st.cache.find? (fun nd => nd.file_path == fp), force with
  | some nd, false =>
      ({ st with nexus_data := some nd }, conf, true)
  | some _, true =>
      let conf' : Config := { conf with normalization := none }
      let newNd : NexusM := { file_path := fp, mid := st.fresh }
      ({ cache := cacheInsert (st.cache.eraseP (fun nd => nd.file_path == fp)) newNd,
         nexus_data := some newNd, fresh := st.fresh + 1 }, conf', false)
  | none, _ =>
      let conf' : Config := { conf with normalization := none }
      let newNd : NexusM := { file_path := fp, mid := st.fresh }
      ({ cache := cacheInsert st.cache newNd,
         nexus_data := some newNd, fresh := st.fresh + 1 }, conf', false)

/-- A sequence of `load` calls with `force=False`, one per path, each with a
fresh default configuration. -/
def loadSeq (normalize : String → String) (st : LoadSt) (ps : List String) : LoadSt :=
  ps.foldl (fun s p => (load normalize s p { normalization := none } false).1) st

/-- The measurements the loader materializes for a path sequence when every
call misses the cache, starting from allocation counter `k`. -/
def mkMs (normalize : String → String) (k : Nat) : List String → List NexusM
  | [] => []
  | p :: ps => ⟨normalize p, k⟩ :: mkMs normalize (k + 1) ps

/-! ## Reduction list -/

/-- The part of a `NexusData` object read by `add_active_to_reduction`:
object identity `mid`, the key set of `cross_sections` (`data_sets.keys()`),
and the two-theta angle of the first reflectivity workspace. -/
structure NexusDataM where
  mid : Nat
  labels : List String
  theta : ℚ
deriving DecidableEq, Repr

/-- The `DataManager` state read and written by `add_active_to_reduction`:
`reduction_list`, `reduction_states`, and the active data set `_nexus_data`
(assumed present). -/
structure RState where
  reduction_list : List NexusDataM
  reduction_states : List String
  active : NexusDataM
deriving DecidableEq, Repr

/-- `DataManager.is_active_data_compatible` (lines 128-152): an empty reduction
list is always compatible; otherwise the number of states must agree and every
cross-section key of the active data must occur in `reduction_states`. -/
def is_active_data_compatible (dm : RState) : Bool :=
  if dm.reduction_list = [] then true
  else if ¬(dm.reduction_states.length = dm.active.labels.length) then false
  else dm.active.labels.all (fun s => decide (s ∈ dm.reduction_states))

/-- The insertion loop of `add_active_to_reduction` (lines 200-210): linear scan
for the first entry whose two-theta is ≥ the new one, insert there, append when
the scan falls through. -/
def insertByTheta (d : NexusDataM) : List NexusDataM → List NexusDataM
  | [] => [d]
  | x :: xs => if d.theta ≤ x.theta then d :: x :: xs else x :: insertByTheta d xs

/-- `DataManager.add_active_to_reduction` (lines 190-214). Returns the new state
and the boolean result; every failure path leaves the state untouched. -/
def add_active_to_reduction (dm : RState) : RState × Bool :=
  if dm.active ∈ dm.reduction_list then (dm, false)
  else if is_active_data_compatible dm = true then
    let states := if dm.reduction_list.length = 0 then dm.active.labels else dm.reduction_states
    ({ dm with reduction_list := insertByTheta dm.active dm.reduction_list,
               reduction_states := states }, true)
  else (dm, false)

/-- A sequence of "load then add to reduction" steps: each measurement is made
active and `add_active_to_reduction` is called. -/
def addSeq (dm : RState) (ds : List NexusDataM) : RState :=
  ds.foldl (fun s d => (add_active_to_reduction { s with active := d }).1) dm

/-- Scattering angles of a reduction list are non-decreasing. -/
def reductionSorted (l : List NexusDataM) : Prop :=
  List.Pairwise (fun a b => a.theta ≤ b.theta) l

/-- Two channel-label lists are equal as sets with the same cardinality. -/
def labelSetEq (a b : List String) : Prop :=
  a.length = b.length ∧ ∀ x, x ∈ a ↔ x ∈ b

/-! ## Trim values and overlap stripping -/

/-- Python's `numpy_array.max()`: the maximum of a non-empty array, a raised
exception (`none`) on an empty one. -/
def pyMax : List ℚ → Option ℚ
  | [] => none
  | x :: xs => some (xs.foldl max x)

/-- `np.where(qs >= thr)[0]`: the ascending list of indices whose entry is
≥ `thr`. -/
def idxGE (thr : ℚ) (qs : List ℚ) : List Nat :=
  (List.range qs.length).filter (fun i => decide (thr ≤ qs.getD i 0))

/-- The two configuration fields written by `get_trim_values` and
`strip_overlap` through the external `NexusData.set_parameter`. Modelled from
the spec: `set_parameter(name, value)` (not under src/) stores `value` in the
named configuration field of every cross section. -/
structure TrimConfig where
  cut_first_n_points : Nat
  cut_last_n_points : Nat
deriving DecidableEq, Repr

/-- `DataManager.get_trim_values` (lines 545-567). `active_ok` is the
three-fold guard `active_channel is not None and active_channel.q is not None
and configuration.normalization is not None`; `db` is the result of
`_find_direct_beam(active_channel)` reduced to the direct beam's intensity
array `direct_beam.r`; `cfg` is the active measurement's configuration. A
falsified guard or an unresolved direct beam returns `None` (`Except.ok none`)
without touching the configuration; otherwise the 5%-of-maximum region is
computed, `region[0]` / `region[-1]` raise when the region is empty, and the
cut values are both written (via `set_parameter`) and returned. -/
def get_trim_values (active_ok : Bool) (db : Option (List ℚ)) (cfg : TrimConfig) :
    Except Unit (Option (Nat × Nat) × TrimConfig) :=
  if active_ok = false then .ok (none, cfg)
  else
    match db with
    | none => .ok (none, cfg)
    | some r =>
      match pyMax r with
      | none => .error ()
      | some m =>
        let region := idxGE (m * (1 / 20)) r
        match region.head?, region.getLast? with
        | some p0, some pl =>
            .ok (some (p0, r.length - pl - 1),
                 { cut_first_n_points := p0, cut_last_n_points := r.length - pl - 1 })
        | _, _ => .error ()

/-- The active-channel cross-section data read and written by
`strip_overlap`: its q-array and the two cut counters of its configuration. -/
structure XSData where
  q : List ℚ
  cut_first_n_points : Nat
  cut_last_n_points : Nat
deriving DecidableEq, Repr

/-- One iteration of the `strip_overlap` loop (lines 578-586) acting on the
pair `(item, next_item)`: read `next_item.q[cut_first_n_points]` (raising when
out of range), compute the overlap indices, and on a non-empty overlap set
`item.cut_last_n_points` to `len(item.q) - overlap_idx[0][0]`. -/
def stripStep (item next_ : XSData) : Except Unit XSData :=
  match next_.q.get? next_.cut_first_n_points with
  | none => .error ()
  | some thr =>
    match (idxGE thr item.q).head? with
    | none => .ok item
    | some i => .ok { item with cut_last_n_points := item.q.length - i }

/-- The full `strip_overlap` loop over adjacent pairs: every element except the
last is replaced by its `stripStep` against its successor. -/
def strip_pairs : List XSData → Except Unit (List XSData)
  | [] => .ok []
  | [x] => .ok [x]
  | x :: y :: rest => do
    let x' ← stripStep x y
    let t ← strip_pairs (y :: rest)
    .ok (x' :: t)

/-- `DataManager.strip_overlap` (lines 569-586): with fewer than two
measurements it only logs and returns; otherwise each measurement but the last
is trimmed against its successor. -/
def strip_overlap (rl : List XSData) : Except Unit (List XSData) :=
  if rl.length < 2 then .ok rl else strip_pairs rl

/-- Default cross-section value used with `List.getD` when indexing reduction
lists in statements. -/
def xs0 : XSData := ⟨[], 0, 0⟩

/-- Relation between a measurement and its trimmed version produced by
`stripStep` against threshold `thr` (the successor's effective starting q).
When some point of `item.q` reaches `thr`, the new `cut_last_n_points` excludes
exactly the points ≥ `thr`; when none does, the measurement is unchanged. -/
def ExcludesExactly (item item' : XSData) (thr : ℚ) : Prop :=
  item'.q = item.q ∧ item'.cut_first_n_points = item.cut_first_n_points ∧
  ((∃ j, j < item.q.length ∧ thr ≤ item.q.getD j 0) →
    ∀ j, j < item.q.length →
      (thr ≤ item.q.getD j 0 ↔ item.q.length - item'.cut_last_n_points ≤ j)) ∧
  ((∀ j, j < item.q.length → ¬ thr ≤ item.q.getD j 0) → item' = item)

/-! ## Asymmetry states -/

/-- Python's `str.lower()`, mapped over the characters (all naming tokens here
are ASCII). -/
def strLower (s : String) : String := ⟨s.data.map Char.toLower⟩

/-- Naming tokens recognized as the off/off cross section
(`determine_asymmetry_states`, lines 621 and 631). -/
def offConv : List String := ["off_off", "off-off"]

/-- Naming tokens recognized as the on/on cross section (line 633). -/
def onConv : List String := ["on_on", "on-on"]

/-- A `for item in states: if f item: x = item` loop: the last matching element
wins. -/
def lastMatch (f : String → Bool) (states : List String) : Option String :=
  states.foldl (fun acc it => if f it then some it else acc) none

/-- `DataManager.determine_asymmetry_states` (lines 612-654). `xsLabel it`
stands for the external `data_sets[it].cross_section_label`. With exactly two
states the first becomes the plus state iff it matches the off/off naming
convention. In the other branch the Python code stores its findings in the
loop-local `_p_state_data`/`_m_state_data` and never copies a successful pair
into `p_state`/`m_state`, so that branch always leaves them `None` and the
first/last fallback decides. -/
def determine_asymmetry_states (xsLabel : String → String) (states : List String) :
    Option String × Option String :=
  let pm : Option String × Option String :=
    if states.length = 2 then
      match states with
      | s0 :: s1 :: _ =>
        if strLower s0 ∈ offConv then (some s0, some s1) else (some s1, some s0)
      | _ => (none, none)
    else
      let p1 := lastMatch (fun it => decide (strLower it ∈ offConv)) states
      let m1 := lastMatch (fun it => decide (strLower it ∈ onConv)) states
      if p1 = none ∨ m1 = none then
        let _p2 := lastMatch (fun it => xsLabel it == "++") states
        let _m2 := lastMatch (fun it => xsLabel it == "--") states
        (none, none)
      else (none, none)
  if pm.1 = none ∧ pm.2 = none ∧ 2 ≤ states.length then
    (states.head?, states.getLast?)
  else pm

/-! ## Cache lemmas -/

/-- The eviction loop drops oldest entries until at most `MAX_CACHE - 1`
remain. -/
theorem evictLoop_eq (c : List α) : evictLoop c = c.drop (c.length - (MAX_CACHE - 1)) := by
  have hM : MAX_CACHE = 50 := rfl
  induction c with
  | nil => simp [evictLoop]
  | cons x t ih =>
    simp only [evictLoop, List.length_cons]
    by_cases h : MAX_CACHE ≤ t.length + 1
    · rw [if_pos h, ih]
      have h1 : t.length + 1 - (MAX_CACHE - 1) = (t.length - (MAX_CACHE - 1)) + 1 := by omega
      rw [h1, List.drop_succ_cons]
    · rw [if_neg h]
      have h0 : t.length + 1 - (MAX_CACHE - 1) = 0 := by omega
      rw [h0, List.drop_zero]

/-- Everything surviving the eviction loop was in the cache before. -/
theorem mem_evictLoop {x : α} {c : List α} (h : x ∈ evictLoop c) : x ∈ c := by
  rw [evictLoop_eq] at h
  exact List.mem_of_mem_drop h

/-- Closed form of a cache insertion. -/
theorem cacheInsert_eq (c : List α) (m : α) :
    cacheInsert c m = c.drop (c.length - (MAX_CACHE - 1)) ++ [m] := by
  rw [cacheInsert, evictLoop_eq]

/-- A cache insertion never leaves more than `MAX_CACHE` entries. -/
theorem cacheInsert_length_le (c : List α) (m : α) :
    (cacheInsert c m).length ≤ MAX_CACHE := by
  have hM : MAX_CACHE = 50 := rfl
  rw [cacheInsert_eq]
  simp only [List.length_append, List.length_drop, List.length_singleton]
  omega

/-- Inserting a whole list into an empty cache keeps exactly the last
`MAX_CACHE` entries, in order. -/
theorem foldl_cacheInsert (ms : List α) :
    List.foldl cacheInsert [] ms = ms.drop (ms.length - MAX_CACHE) := by
  have hM : MAX_CACHE = 50 := rfl
  induction ms using List.reverseRecOn with
  | nil => simp
  | append_singleton ms m ih =>
    rw [List.foldl_append, List.foldl_cons, List.foldl_nil, ih, cacheInsert_eq,
      List.length_drop]
    have h1 : ms.length + 1 - MAX_CACHE ≤ ms.length := by omega
    rw [List.drop_drop, List.length_append, List.length_singleton,
      List.drop_append_of_le_length h1]
    congr 2
    omega

/-- Membership in the folded cache implies membership in the inserted list. -/
theorem mem_foldl_cacheInsert {x : α} {ms : List α}
    (h : x ∈ List.foldl cacheInsert [] ms) : x ∈ ms := by
  rw [foldl_cacheInsert] at h
  exact List.mem_of_mem_drop h

/-- Length of the loader-materialized measurement list. -/
theorem mkMs_length (normalize : String → String) (k : Nat) (ps : List String) :
    (mkMs normalize k ps).length = ps.length := by
  induction ps generalizing k with
  | nil => rfl
  | cons p ps ih => simp [mkMs, ih]

/-- Paths of loader-materialized measurements come from the path sequence. -/
theorem mkMs_mem {x : NexusM} (normalize : String → String) (k : Nat) (ps : List String)
    (h : x ∈ mkMs normalize k ps) : x.file_path ∈ ps.map normalize := by
  induction ps generalizing k with
  | nil => simp [mkMs] at h
  | cons p ps ih =>
    simp only [mkMs, List.mem_cons] at h
    rcases h with h | h
    · subst h; simp
    · simp [ih (k + 1) h]

/-- Cache evolution of a sequence of cache-missing loads: every load allocates
a fresh measurement and pushes it through the bounded cache. -/
theorem loadSeq_spec (normalize : String → String) :
    ∀ (ps : List String) (st : LoadSt),
      ((ps.map normalize).Nodup) →
      (∀ nd ∈ st.cache, nd.file_path ∉ ps.map normalize) →
      (loadSeq normalize st ps).cache
          = List.foldl cacheInsert st.cache (mkMs normalize st.fresh ps)
        ∧ (loadSeq normalize st ps).fresh = st.fresh + ps.length := by
  intro ps
  induction ps with
  | nil => intro st _ _; simp [loadSeq, mkMs]
  | cons p ps ih =>
    intro st hnd h
    have hfind : st.cache.find? (fun nd => nd.file_path == normalize p) = none := by
      rw [List.find?_eq_none]
      intro nd hnd'
      have : nd.file_path ∉ (p :: ps).map normalize := h nd hnd'
      simp only [List.map_cons, List.mem_cons] at this
      simp only [beq_iff_eq]
      exact fun hc => this (Or.inl hc)
    have hstep : loadSeq normalize st (p :: ps)
        = loadSeq normalize
            ⟨cacheInsert st.cache ⟨normalize p, st.fresh⟩,
             some ⟨normalize p, st.fresh⟩, st.fresh + 1⟩ ps := by
      simp only [loadSeq, List.foldl_cons, load, hfind]
    simp only [List.map_cons, List.nodup_cons] at hnd
    have hpre : ∀ nd ∈ cacheInsert st.cache ⟨normalize p, st.fresh⟩,
        nd.file_path ∉ ps.map normalize := by
      intro nd hmem
      rcases List.mem_append.mp hmem with hmem | hmem
      · have := h nd (mem_evictLoop hmem)
        simp only [List.map_cons, List.mem_cons] at this
        exact fun hc => this (Or.inr hc)
      · simp only [List.mem_singleton] at hmem
        subst hmem
        exact hnd.1
    obtain ⟨hc, hf⟩ := ih ⟨cacheInsert st.cache ⟨normalize p, st.fresh⟩,
      some ⟨normalize p, st.fresh⟩, st.fresh + 1⟩ hnd.2 hpre
    refine ⟨?_, ?_⟩
    · rw [hstep, hc]
      simp [mkMs, List.foldl_cons]
    · rw [hstep, hf]
      simp only [List.length_cons]
      omega

/-- Claim C1: a sequence of `load` calls on more than `MAX_CACHE` pairwise
distinct (normalized) paths, starting from a fresh `DataManager` so that none
is served from the cache, ends with the cache holding exactly the `MAX_CACHE`
most recently inserted measurements in insertion order (the older ones having
been evicted oldest-first), and the cache size never exceeds `MAX_CACHE` after
any prefix of the sequence. -/
theorem c1_cache_fifo (normalize : String → String) (ps : List String)
    (hnd : (ps.map normalize).Nodup) (hk : MAX_CACHE < ps.length) :
    (loadSeq normalize initState ps).cache
        = (mkMs normalize 0 ps).drop (ps.length - MAX_CACHE)
    ∧ (loadSeq normalize initState ps).cache.length = MAX_CACHE
    ∧ ∀ j, (loadSeq normalize initState (ps.take j)).cache.length ≤ MAX_CACHE := by
  have hM : MAX_CACHE = 50 := rfl
  obtain ⟨hc, -⟩ := loadSeq_spec normalize ps initState hnd (by simp [initState])
  have hfull : (loadSeq normalize initState ps).cache
      = (mkMs normalize 0 ps).drop (ps.length - MAX_CACHE) := by
    rw [hc]
    show List.foldl cacheInsert [] (mkMs normalize 0 ps) = _
    rw [foldl_cacheInsert, mkMs_length]
  refine ⟨hfull, ?_, ?_⟩
  · rw [hfull]
    simp only [List.length_drop, mkMs_length]
    omega
  · intro j
    have hnd' : ((ps.take j).map normalize).Nodup := by
      rw [List.map_take]
      exact hnd.sublist (List.take_sublist _ _)
    obtain ⟨hcj, -⟩ := loadSeq_spec normalize (ps.take j) initState hnd' (by simp [initState])
    rw [hcj]
    show (List.foldl cacheInsert [] (mkMs normalize 0 (ps.take j))).length ≤ MAX_CACHE
    rw [foldl_cacheInsert]
    simp only [List.length_drop]
    omega

/-- Witness for C1 at 51 concrete distinct paths. -/
theorem c1_cache_fifo_witness :
    (loadSeq id initState ((List.range 51).map Nat.repr)).cache
        = (mkMs id 0 ((List.range 51).map Nat.repr)).drop
            (((List.range 51).map Nat.repr).length - MAX_CACHE)
    ∧ (loadSeq id initState ((List.range 51).map Nat.repr)).cache.length = MAX_CACHE
    ∧ ∀ j, (loadSeq id initState (((List.range 51).map Nat.repr).take j)).cache.length
        ≤ MAX_CACHE :=
  c1_cache_fifo id ((List.range 51).map Nat.repr) (by decide) (by decide)

/-! ## Reduction-list lemmas -/

/-- The insertion loop inserts at the first index whose angle is ≥ the new
angle, appending (index = length) when no such index exists. -/
theorem insertByTheta_eq (d : NexusDataM) (l : List NexusDataM) :
    insertByTheta d l
      = l.insertIdx (l.findIdx fun x => decide (d.theta ≤ x.theta)) d := by
  induction l with
  | nil => simp [insertByTheta]
  | cons x xs ih =>
    by_cases h : d.theta ≤ x.theta
    · simp [insertByTheta, h, List.findIdx_cons, List.insertIdx_zero]
    · simp only [insertByTheta, if_neg h, List.findIdx_cons, decide_eq_true_eq]
      rw [ih]
      simp [h, List.insertIdx_succ_cons]

/-- Elements of the insertion result. -/
theorem mem_insertByTheta {y d : NexusDataM} {l : List NexusDataM}
    (h : y ∈ insertByTheta d l) : y = d ∨ y ∈ l := by
  induction l with
  | nil => simpa [insertByTheta] using h
  | cons x xs ih =>
    by_cases hc : d.theta ≤ x.theta
    · simp only [insertByTheta, if_pos hc, List.mem_cons] at h
      rcases h with h | h | h
      · simp [h]
      · simp [h]
      · simp [h]
    · simp only [insertByTheta, if_neg hc, List.mem_cons] at h
      rcases h with h | h
      · simp [h]
      · rcases ih h with h | h <;> simp [h]

/-- The insertion loop preserves the non-decreasing-angle invariant. -/
theorem insertByTheta_sorted {d : NexusDataM} {l : List NexusDataM}
    (h : reductionSorted l) : reductionSorted (insertByTheta d l) := by
  induction l with
  | nil => simp [insertByTheta, reductionSorted]
  | cons x xs ih =>
    rw [reductionSorted, List.pairwise_cons] at h
    by_cases hc : d.theta ≤ x.theta
    · rw [reductionSorted]
      simp only [insertByTheta, if_pos hc]
      rw [List.pairwise_cons]
      refine ⟨?_, List.Pairwise.cons h.1 h.2⟩
      intro y hy
      rcases List.mem_cons.mp hy with hy | hy
      · subst hy; exact hc
      · exact le_trans hc (h.1 y hy)
    · rw [reductionSorted]
      simp only [insertByTheta, if_neg hc]
      rw [List.pairwise_cons]
      refine ⟨?_, ih h.2⟩
      intro y hy
      rcases mem_insertByTheta hy with hy | hy
      · subst hy; exact le_of_lt (lt_of_not_le hc)
      · exact h.1 y hy

/-- One `add_active_to_reduction` call preserves the ordering invariant. -/
theorem add_active_to_reduction_sorted (dm : RState)
    (h : reductionSorted dm.reduction_list) :
    reductionSorted (add_active_to_reduction dm).1.reduction_list := by
  rw [add_active_to_reduction]
  by_cases hmem : dm.active ∈ dm.reduction_list
  · rw [if_pos hmem]; exact h
  · rw [if_neg hmem]
    by_cases hcompat : is_active_data_compatible dm = true
    · rw [if_pos hcompat]
      exact insertByTheta_sorted h
    · rw [if_neg hcompat]; exact h

/-- Any sequence of "make active, add to reduction" steps preserves the
ordering invariant. -/
theorem addSeq_sorted (dm : RState) (ds : List NexusDataM)
    (h : reductionSorted dm.reduction_list) :
    reductionSorted (addSeq dm ds).reduction_list := by
  induction ds generalizing dm with
  | nil => simpa [addSeq] using h
  | cons d ds ih =>
    show reductionSorted (addSeq (add_active_to_reduction { dm with active := d }).1 ds).reduction_list
    exact ih _ (add_active_to_reduction_sorted { dm with active := d } h)

/-- Claim C2: a successful `add_active_to_reduction` inserts the active
measurement at the first index whose existing two-theta is ≥ the new
measurement's two-theta (appending when no such index exists, since `findIdx`
returns the length there), and consequently after any sequence of additions a
reduction list with sorted angles keeps its scattering angles non-decreasing. -/
theorem c2_reduction_ordering (dm : RState) (ds : List NexusDataM)
    (hs : reductionSorted dm.reduction_list) :
    ((add_active_to_reduction dm).2 = true →
      (add_active_to_reduction dm).1.reduction_list
        = dm.reduction_list.insertIdx
            (dm.reduction_list.findIdx fun x => decide (dm.active.theta ≤ x.theta))
            dm.active)
    ∧ reductionSorted (addSeq dm ds).reduction_list := by
  refine ⟨?_, addSeq_sorted dm ds hs⟩
  intro hsucc
  rw [add_active_to_reduction] at *
  by_cases hmem : dm.active ∈ dm.reduction_list
  · rw [if_pos hmem] at hsucc; cases hsucc
  · rw [if_neg hmem] at hsucc ⊢
    by_cases hcompat : is_active_data_compatible dm = true
    · rw [if_pos hcompat]
      exact insertByTheta_eq dm.active dm.reduction_list
    · rw [if_neg hcompat] at hsucc; cases hsucc

/-- Witness for C2: two concrete measurements added in decreasing-angle order. -/
theorem c2_reduction_ordering_witness :
    ((add_active_to_reduction ⟨[], [], ⟨0, ["a"], 2⟩⟩).2 = true →
      (add_active_to_reduction ⟨[], [], ⟨0, ["a"], 2⟩⟩).1.reduction_list
        = ([] : List NexusDataM).insertIdx
            (([] : List NexusDataM).findIdx fun x => decide ((2 : ℚ) ≤ x.theta))
            ⟨0, ["a"], 2⟩)
    ∧ reductionSorted (addSeq ⟨[], [], ⟨0, ["a"], 2⟩⟩
        [⟨1, ["a"], 2⟩, ⟨2, ["a"], 1⟩]).reduction_list :=
  c2_reduction_ordering ⟨[], [], ⟨0, ["a"], 2⟩⟩ [⟨1, ["a"], 2⟩, ⟨2, ["a"], 1⟩]
    (by simp [reductionSorted])

/-- With a non-empty reduction list and duplicate-free active channel labels
(they are dictionary keys), the compatibility check of
`is_active_data_compatible` succeeds exactly when the active label set equals
`reduction_states` in cardinality and membership. -/
theorem is_active_data_compatible_iff (dm : RState) (hnd : dm.active.labels.Nodup)
    (hne : dm.reduction_list ≠ []) :
    is_active_data_compatible dm = true ↔ labelSetEq dm.active.labels dm.reduction_states := by
  rw [is_active_data_compatible, if_neg hne]
  by_cases hlen : dm.reduction_states.length = dm.active.labels.length
  · rw [if_neg (not_not_intro hlen), List.all_eq_true]
    constructor
    · intro hall
      have hsub : ∀ s ∈ dm.active.labels, s ∈ dm.reduction_states := by
        intro s hs
        simpa using hall s hs
      refine ⟨hlen.symm, fun x => ⟨fun hx => hsub x hx, fun hx => ?_⟩⟩
      by_contra hnx
      have hfsub : dm.active.labels.toFinset ⊆ dm.reduction_states.toFinset.erase x := by
        intro y hy
        rw [List.mem_toFinset] at hy
        rw [Finset.mem_erase, List.mem_toFinset]
        exact ⟨fun hyx => hnx (hyx ▸ hy), hsub y hy⟩
      have h1 : dm.active.labels.toFinset.card = dm.active.labels.length :=
        List.toFinset_card_of_nodup hnd
      have h2 : dm.active.labels.toFinset.card
          ≤ (dm.reduction_states.toFinset.erase x).card := Finset.card_le_card hfsub
      have h3 : (dm.reduction_states.toFinset.erase x).card
          = dm.reduction_states.toFinset.card - 1 :=
        Finset.card_erase_of_mem (List.mem_toFinset.mpr hx)
      have h4 : dm.reduction_states.toFinset.card ≤ dm.reduction_states.length :=
        List.toFinset_card_le dm.reduction_states
      have h5 : 0 < dm.reduction_states.length := List.length_pos_of_mem hx
      omega
    · intro hset
      intro s hs
      simpa using (hset.2 s).mp hs
  · rw [if_pos hlen]
    exact ⟨fun h => absurd h Bool.false_ne_true, fun hset => absurd hset.1.symm hlen⟩

/-- Claim C4: `add_active_to_reduction` returns `False`, leaving the reduction
list and `reduction_states` (and the whole state) unchanged, whenever the
active measurement is already present, or the reduction list is non-empty and
the active channel-label set is not equal (same cardinality and membership) to
the fixed `reduction_states`. The labels are dictionary keys, hence the
duplicate-freeness hypothesis. -/
theorem c4_add_rejection (dm : RState) (hnd : dm.active.labels.Nodup)
    (h : dm.active ∈ dm.reduction_list
        ∨ (dm.reduction_list ≠ [] ∧ ¬ labelSetEq dm.active.labels dm.reduction_states)) :
    add_active_to_reduction dm = (dm, false) := by
  by_cases hmem : dm.active ∈ dm.reduction_list
  · rw [add_active_to_reduction, if_pos hmem]
  · rcases h with h | ⟨hne, hset⟩
    · exact absurd h hmem
    · rw [add_active_to_reduction, if_neg hmem, if_neg]
      intro hc
      exact hset ((is_active_data_compatible_iff dm hnd hne).mp hc)

/-- Witness for C4: rejection of a measurement whose label set differs from the
fixed `reduction_states`. -/
theorem c4_add_rejection_witness :
    add_active_to_reduction ⟨[⟨0, ["a"], 1⟩], ["a"], ⟨1, ["a", "b"], 2⟩⟩
      = (⟨[⟨0, ["a"], 1⟩], ["a"], ⟨1, ["a", "b"], 2⟩⟩, false) :=
  c4_add_rejection ⟨[⟨0, ["a"], 1⟩], ["a"], ⟨1, ["a", "b"], 2⟩⟩ (by decide)
    (Or.inr ⟨by decide, fun hset => absurd hset.1 (by decide)⟩)

/-! ## Load round-trip and configuration effects -/

/-- Finding in an appended singleton when nothing earlier matches. -/
theorem find?_append_singleton {l : List NexusM} {f : NexusM → Bool} {a : NexusM}
    (hl : ∀ x ∈ l, f x = false) (ha : f a = true) : (l ++ [a]).find? f = some a := by
  induction l with
  | nil => simp [List.find?, ha]
  | cons x t ih =>
    have hx := hl x (by simp)
    simp only [List.cons_append, List.find?_cons, hx]
    exact ih fun y hy => hl y (by simp [hy])

/-- Claim C9: loading a path that is not yet cached and then loading it again
(both with `force=False`) returns `is_from_cache = false` then
`is_from_cache = true`, and both calls leave one and the same measurement
object (same allocation identity) as the active selection and as the cache
entry for that path; the second call changes no cache entry. -/
theorem c9_load_roundtrip (normalize : String → String) (st : LoadSt) (p : String)
    (c1 c2 : Config) (hmiss : ∀ nd ∈ st.cache, nd.file_path ≠ normalize p) :
    (load normalize st p c1 false).2.2 = false
    ∧ (load normalize (load normalize st p c1 false).1 p c2 false).2.2 = true
    ∧ ∃ nd, (load normalize st p c1 false).1.nexus_data = some nd
        ∧ (load normalize (load normalize st p c1 false).1 p c2 false).1.nexus_data = some nd
        ∧ nd.file_path = normalize p
        ∧ nd ∈ (load normalize st p c1 false).1.cache
        ∧ (load normalize (load normalize st p c1 false).1 p c2 false).1.cache
            = (load normalize st p c1 false).1.cache := by
  have hfind : st.cache.find? (fun nd => nd.file_path == normalize p) = none := by
    rw [List.find?_eq_none]
    intro nd hnd
    simpa using hmiss nd hnd
  have h1 : load normalize st p c1 false
      = (⟨cacheInsert st.cache ⟨normalize p, st.fresh⟩,
          some ⟨normalize p, st.fresh⟩, st.fresh + 1⟩, ⟨none⟩, false) := by
    simp [load, hfind]
  have hfind2 : (cacheInsert st.cache ⟨normalize p, st.fresh⟩).find?
      (fun nd => nd.file_path == normalize p) = some ⟨normalize p, st.fresh⟩ := by
    rw [cacheInsert]
    apply find?_append_singleton
    · intro x hx
      have := hmiss x (mem_evictLoop hx)
      simpa using this
    · simp
  have h2 : load normalize
      (⟨cacheInsert st.cache ⟨normalize p, st.fresh⟩,
        some ⟨normalize p, st.fresh⟩, st.fresh + 1⟩ : LoadSt) p c2 false
      = (⟨cacheInsert st.cache ⟨normalize p, st.fresh⟩,
          some ⟨normalize p, st.fresh⟩, st.fresh + 1⟩, c2, true) := by
    simp [load, hfind2]
  rw [h1]
  refine ⟨rfl, ?_, ⟨normalize p, st.fresh⟩, rfl, ?_, rfl, ?_, ?_⟩
  · simp [h2]
  · simp [h2]
  · rw [cacheInsert]; simp
  · simp [h2]

/-- Witness for C9 on a fresh manager and a concrete path. -/
theorem c9_load_roundtrip_witness :
    (load id initState "a" ⟨none⟩ false).2.2 = false
    ∧ (load id (load id initState "a" ⟨none⟩ false).1 "a" ⟨none⟩ false).2.2 = true
    ∧ ∃ nd, (load id initState "a" ⟨none⟩ false).1.nexus_data = some nd
        ∧ (load id (load id initState "a" ⟨none⟩ false).1 "a" ⟨none⟩ false).1.nexus_data
            = some nd
        ∧ nd.file_path = id "a"
        ∧ nd ∈ (load id initState "a" ⟨none⟩ false).1.cache
        ∧ (load id (load id initState "a" ⟨none⟩ false).1 "a" ⟨none⟩ false).1.cache
            = (load id initState "a" ⟨none⟩ false).1.cache :=
  c9_load_roundtrip id initState "a" ⟨none⟩ ⟨none⟩ (by simp [initState])

/-- Claim C10: whenever `load` does not serve the measurement from the cache
(cache miss, or `force=True`), the caller-supplied configuration's
`normalization` field is `None` afterwards — it is reset before the loader is
invoked, discarding any preconfigured reference; on a cache hit with
`force=False` the caller's configuration is returned unchanged. -/
theorem c10_config_reset (normalize : String → String) (st : LoadSt) (p : String)
    (conf : Config) :
    (∀ force, (st.cache.find? (fun nd => nd.file_path == normalize p) = none ∨ force = true) →
        (load normalize st p conf force).2.1.normalization = none)
    ∧ (∀ nd, st.cache.find? (fun nd => nd.file_path == normalize p) = some nd →
        (load normalize st p conf false).2.1 = conf) := by
  constructor
  · intro force h
    rcases h with h | h
    · cases force <;> simp [load, h]
    · subst h
      cases hf : st.cache.find? (fun nd => nd.file_path == normalize p) with
      | none => simp [load, hf]
      | some nd => simp [load, hf]
  · intro nd h
    simp [load, h]

/-- Witness for C10: a cache miss resets the preconfigured normalization; a
cache hit leaves the caller's configuration untouched. -/
theorem c10_config_reset_witness :
    (load id initState "a" ⟨some (RunId.int 3)⟩ false).2.1.normalization = none
    ∧ (load id ⟨[⟨"a", 0⟩], none, 1⟩ "a" ⟨some (RunId.int 3)⟩ false).2.1
        = ⟨some (RunId.int 3)⟩ :=
  ⟨(c10_config_reset id initState "a" ⟨some (RunId.int 3)⟩).1 false (Or.inl rfl),
   (c10_config_reset id ⟨[⟨"a", 0⟩], none, 1⟩ "a" ⟨some (RunId.int 3)⟩).2 ⟨"a", 0⟩ (by rfl)⟩

/-! ## Direct-beam matching -/

/-- Claim C3 (failing trace): with direct-beam candidates of run numbers 10 and
20, an active run number 9, no strict match, and run 10 as the only relaxed
(`skip_slits=True`) match, `find_best_direct_beam` selects run 20 — the stale
`item_number` of the last strict-pass iteration — instead of the nearest
matching candidate 10 required by the documented two-pass nearest-run-number
rule. -/
theorem c3_relaxed_pass_stale :
    find_best_direct_beam mpEx 9 [dbEx1, dbEx2] = Except.ok (some 20)
    ∧ mpEx dbEx1 true = true ∧ mpEx dbEx2 true = false
    ∧ mpEx dbEx1 false = false ∧ mpEx dbEx2 false = false
    ∧ dbEx1.number = RunId.int 10 ∧ dbEx2.number = RunId.int 20
    ∧ |(10 : Int) - 9| < |(20 : Int) - 9| :=
  ⟨rfl, rfl, rfl, rfl, rfl, rfl, rfl, by decide⟩

/-- Claim C8 (counterexample part): `find_best_direct_beam` applies `int()` to
every direct-beam entry's run identifier without a guard, so a single entry
with a non-parseable identifier makes the nearest-run-number scan raise even
though every candidate satisfies the match predicate. -/
theorem c8_counterexample :
    find_best_direct_beam (fun _ _ => true) 5 [⟨RunId.str "abc", ["x"]⟩] = Except.error ()
    ∧ pyInt (RunId.str "abc") = none :=
  ⟨rfl, rfl⟩

/-- The strict pass returns normally when every entry's run identifier parses
as an integer. -/
theorem strict_pass_ok (mp : DBItem → Bool → Bool) (a : Int) :
    ∀ (dbl : List DBItem) (closest stale : Option Int),
      (∀ it ∈ dbl, (pyInt it.number).isSome = true) →
      ∃ pr, strict_pass mp a dbl closest stale = .ok pr := by
  intro dbl
  induction dbl with
  | nil => intro c s _; exact ⟨(c, s), rfl⟩
  | cons item rest ih =>
    intro c s hall
    obtain ⟨n, hn⟩ := Option.isSome_iff_exists.mp (hall item (by simp))
    simp only [strict_pass, hn]
    exact ih _ _ fun it hit => hall it (by simp [hit])

/-- Claim C8 (amended): the identifier comparison used by `_find_direct_beam`
is numeric when both sides parse as integers and raw token equality when
either side does not parse (and never raises); `find_best_direct_beam`,
however, only returns normally when every entry's identifier parses — its
`int(item.number)` conversion is unguarded, as the counterexample shows. -/
theorem c8_idmatch_amended :
    (∀ a b : RunId, (pyInt a).isSome = true → (pyInt b).isSome = true →
        (idMatch a b = true ↔ pyInt a = pyInt b))
    ∧ (∀ a b : RunId, (pyInt a = none ∨ pyInt b = none) →
        (idMatch a b = true ↔ a = b))
    ∧ (∀ (mp : DBItem → Bool → Bool) (x : Int) (dbl : List DBItem),
        (∀ it ∈ dbl, (pyInt it.number).isSome = true) →
        isOkB (find_best_direct_beam mp x dbl) = true) := by
  refine ⟨?_, ?_, ?_⟩
  · intro a b ha hb
    obtain ⟨na, hna⟩ := Option.isSome_iff_exists.mp ha
    obtain ⟨nb, hnb⟩ := Option.isSome_iff_exists.mp hb
    rw [idMatch, beq_iff_eq, coerceId, coerceId, hna, hnb]
    simp
  · intro a b h
    constructor
    · intro hm
      rw [idMatch, beq_iff_eq] at hm
      rcases h with h | h
      · have hca : coerceId a = a := by rw [coerceId, h]
        cases hb : pyInt b with
        | none =>
          have hcb : coerceId b = b := by rw [coerceId, hb]
          rw [hca, hcb] at hm
          exact hm
        | some nb =>
          have hcb : coerceId b = .int nb := by rw [coerceId, hb]
          rw [hca, hcb] at hm
          rw [hm] at h
          simp [pyInt] at h
      · have hcb : coerceId b = b := by rw [coerceId, h]
        cases ha : pyInt a with
        | none =>
          have hca : coerceId a = a := by rw [coerceId, ha]
          rw [hca, hcb] at hm
          exact hm
        | some na =>
          have hca : coerceId a = .int na := by rw [coerceId, ha]
          rw [hca, hcb] at hm
          rw [← hm] at h
          simp [pyInt] at h
    · intro he
      subst he
      rw [idMatch, beq_iff_eq]
  · intro mp x dbl hall
    obtain ⟨⟨c, s⟩, hpr⟩ := strict_pass_ok mp x dbl none none hall
    cases c with
    | some v =>
      simp only [find_best_direct_beam]
      rw [hpr]
      rfl
    | none =>
      simp only [find_best_direct_beam]
      rw [hpr]
      rfl

/-- Witness for C8 (amended) at concrete identifiers and a concrete list. -/
theorem c8_idmatch_amended_witness :
    (idMatch (RunId.str "7") (RunId.int 7) = true
        ↔ pyInt (RunId.str "7") = pyInt (RunId.int 7))
    ∧ (idMatch (RunId.str "abc") (RunId.str "abc") = true
        ↔ RunId.str "abc" = RunId.str "abc")
    ∧ isOkB (find_best_direct_beam (fun _ _ => true) 5 [⟨RunId.int 7, ["x"]⟩]) = true :=
  ⟨c8_idmatch_amended.1 (RunId.str "7") (RunId.int 7) rfl rfl,
   c8_idmatch_amended.2.1 (RunId.str "abc") (RunId.str "abc") (Or.inl rfl),
   c8_idmatch_amended.2.2 (fun _ _ => true) 5 [⟨RunId.int 7, ["x"]⟩]
     (by intro it hit; simp at hit; rw [hit]; rfl)⟩

/-! ## Asymmetry states -/

/-- Claim C7 (counterexample): for the two states `["off_off", "on_on"]` the
code returns `"off_off"` — the label that does match the spin-off/off naming
convention — as the plus state, not the non-matching label. -/
theorem c7_counterexample :
    (determine_asymmetry_states (fun _ => "") ["off_off", "on_on"]).1 = some "off_off"
    ∧ strLower "off_off" ∈ offConv
    ∧ (determine_asymmetry_states (fun _ => "") ["off_off", "on_on"]).1 ≠ some "on_on" := by
  refine ⟨by decide, by decide, by decide⟩

/-- Claim C7 (amended): with exactly two reduction states the code returns the
first label as "plus" exactly when that label matches the off/off naming
convention, and the second label as "plus" otherwise; in particular, whenever
either of the two labels matches the convention, the returned plus state is a
label matching the convention — not the non-matching one. -/
theorem c7_two_state_amended (xsLabel : String → String) (s0 s1 : String) :
    determine_asymmetry_states xsLabel [s0, s1]
        = (if strLower s0 ∈ offConv then (some s0, some s1) else (some s1, some s0))
    ∧ ((strLower s0 ∈ offConv ∨ strLower s1 ∈ offConv) →
        ∃ p, (determine_asymmetry_states xsLabel [s0, s1]).1 = some p
          ∧ strLower p ∈ offConv) := by
  have hmain : determine_asymmetry_states xsLabel [s0, s1]
      = (if strLower s0 ∈ offConv then (some s0, some s1) else (some s1, some s0)) := by
    rw [determine_asymmetry_states]
    by_cases h0 : strLower s0 ∈ offConv <;> simp [h0]
  refine ⟨hmain, ?_⟩
  intro h
  rw [hmain]
  by_cases h0 : strLower s0 ∈ offConv
  · exact ⟨s0, by simp [h0]⟩
  · rcases h with h | h
    · exact absurd h h0
    · exact ⟨s1, by simp [h0, h]⟩

/-- Witness for C7 (amended) at the concrete pair of states. -/
theorem c7_two_state_amended_witness :
    (determine_asymmetry_states (fun _ => "") ["on_on", "off-off"]
        = if strLower "on_on" ∈ offConv
          then (some "on_on", some "off-off") else (some "off-off", some "on_on"))
    ∧ ∃ p, (determine_asymmetry_states (fun _ => "") ["on_on", "off-off"]).1 = some p
        ∧ strLower p ∈ offConv :=
  ⟨(c7_two_state_amended (fun _ => "") "on_on" "off-off").1,
   (c7_two_state_amended (fun _ => "") "on_on" "off-off").2 (Or.inr (by decide))⟩


/-! ## Trim-bound lemmas -/

/-- The head of a strictly increasing list bounds all elements from below. -/
theorem head_le_of_pairwise_lt {l : List Nat} {a : Nat}
    (hp : l.Pairwise (· < ·)) (hh : l.head? = some a) : ∀ x ∈ l, a ≤ x := by
  cases l with
  | nil => cases hh
  | cons b t =>
    simp only [List.head?_cons, Option.some.injEq] at hh
    subst hh
    rw [List.pairwise_cons] at hp
    intro x hx
    rcases List.mem_cons.mp hx with hx | hx
    · subst hx; exact le_refl _
    · exact le_of_lt (hp.1 x hx)

/-- The last element of a strictly increasing list bounds all elements from
above. -/
theorem le_getLast_of_pairwise_lt {l : List Nat} {a : Nat}
    (hp : l.Pairwise (· < ·)) (hh : l.getLast? = some a) : ∀ x ∈ l, x ≤ a := by
  intro x hx
  have hh' : l.reverse.head? = some a := by rw [List.head?_reverse]; exact hh
  have hp' : l.reverse.Pairwise (fun u v => v < u) := List.pairwise_reverse.mpr hp
  have hx' : x ∈ l.reverse := List.mem_reverse.mpr hx
  cases hrev : l.reverse with
  | nil => rw [hrev] at hh'; cases hh'
  | cons b t =>
    rw [hrev] at hh' hp' hx'
    simp only [List.head?_cons, Option.some.injEq] at hh'
    subst hh'
    rw [List.pairwise_cons] at hp'
    rcases List.mem_cons.mp hx' with h | h
    · subst h; exact le_refl _
    · exact le_of_lt (hp'.1 x h)

/-- The index lists produced by `idxGE` are strictly increasing. -/
theorem idxGE_pairwise (thr : ℚ) (qs : List ℚ) : (idxGE thr qs).Pairwise (· < ·) :=
  (List.pairwise_lt_range qs.length).sublist (List.filter_sublist _)

/-- Membership in an `idxGE` index list. -/
theorem mem_idxGE {thr : ℚ} {qs : List ℚ} {i : Nat} :
    i ∈ idxGE thr qs ↔ i < qs.length ∧ thr ≤ qs.getD i 0 := by
  simp [idxGE, List.mem_filter, List.mem_range]

/-- The head of `idxGE` is the first qualifying index. -/
theorem idxGE_head {thr : ℚ} {qs : List ℚ} {i : Nat}
    (h : (idxGE thr qs).head? = some i) :
    i < qs.length ∧ thr ≤ qs.getD i 0 ∧ ∀ j, j < i → ¬ thr ≤ qs.getD j 0 := by
  have hmem : i ∈ idxGE thr qs := by
    cases hl : idxGE thr qs with
    | nil => rw [hl] at h; cases h
    | cons b t => rw [hl] at h; simp only [List.head?_cons, Option.some.injEq] at h; simp [hl, h]
  obtain ⟨hlt, hge⟩ := mem_idxGE.mp hmem
  refine ⟨hlt, hge, ?_⟩
  intro j hj hgej
  have hjmem : j ∈ idxGE thr qs := mem_idxGE.mpr ⟨lt_trans hj hlt, hgej⟩
  have := head_le_of_pairwise_lt (idxGE_pairwise thr qs) h j hjmem
  omega

/-- The last element of `idxGE` is the last qualifying index. -/
theorem idxGE_getLast {thr : ℚ} {qs : List ℚ} {i : Nat}
    (h : (idxGE thr qs).getLast? = some i) :
    i < qs.length ∧ thr ≤ qs.getD i 0 ∧ ∀ j, i < j → j < qs.length → ¬ thr ≤ qs.getD j 0 := by
  have hmem : i ∈ idxGE thr qs := by
    obtain ⟨hne', heq⟩ := List.mem_getLast?_eq_getLast (l := idxGE thr qs) (x := i)
      (Option.mem_def.mpr h)
    rw [heq]
    exact List.getLast_mem hne'
  obtain ⟨hlt, hge⟩ := mem_idxGE.mp hmem
  refine ⟨hlt, hge, ?_⟩
  intro j hij hj hgej
  have hjmem : j ∈ idxGE thr qs := mem_idxGE.mpr ⟨hj, hgej⟩
  have := le_getLast_of_pairwise_lt (idxGE_pairwise thr qs) h j hjmem
  omega

/-- A qualifying index makes both ends of `idxGE` defined. -/
theorem idxGE_isSome {thr : ℚ} {qs : List ℚ} {i : Nat}
    (hi : i < qs.length) (hp : thr ≤ qs.getD i 0) :
    (∃ p0, (idxGE thr qs).head? = some p0) ∧ ∃ pl, (idxGE thr qs).getLast? = some pl := by
  have hmem : i ∈ idxGE thr qs := mem_idxGE.mpr ⟨hi, hp⟩
  have hne : idxGE thr qs ≠ [] := List.ne_nil_of_mem hmem
  constructor
  · cases hh : (idxGE thr qs).head? with
    | none => exact absurd (List.head?_eq_none_iff.mp hh) hne
    | some p0 => exact ⟨p0, rfl⟩
  · cases hh : (idxGE thr qs).getLast? with
    | none => exact absurd (List.getLast?_eq_none_iff.mp hh) hne
    | some pl => exact ⟨pl, rfl⟩

/-- The maximum of a non-empty array is one of its entries. -/
theorem foldl_max_mem : ∀ (xs : List ℚ) (x : ℚ), xs.foldl max x ∈ x :: xs := by
  intro xs
  induction xs with
  | nil => intro x; simp
  | cons y ys ih =>
    intro x
    rw [List.foldl_cons]
    rcases List.mem_cons.mp (ih (max x y)) with h | h
    · rcases max_choice x y with hm | hm
      · exact List.mem_cons.mpr (Or.inl (h.trans hm))
      · exact List.mem_cons.mpr (Or.inr (List.mem_cons.mpr (Or.inl (h.trans hm))))
    · exact List.mem_cons.mpr (Or.inr (List.mem_cons.mpr (Or.inr h)))

/-- `pyMax` returns a member of the array. -/
theorem pyMax_mem {r : List ℚ} {m : ℚ} (h : pyMax r = some m) : m ∈ r := by
  cases r with
  | nil => cases h
  | cons x xs =>
    simp only [pyMax, Option.some.injEq] at h
    subst h
    exact foldl_max_mem xs x

/-- Bridge between `List.getD` with default `0` and `List.get`. -/
theorem getD_eq_get_q (l : List ℚ) (i : Nat) (h : i < l.length) :
    l.getD i 0 = l.get ⟨i, h⟩ := by
  rw [List.getD_eq_get]

/-- Claim C5: for an active channel with a resolved direct beam of intensity
array `r`, `get_trim_values` returns and writes `cut_first` = first index with
`r[i] ≥ 0.05 · max r` and `cut_last` = `len r − (last such index) − 1`; it
returns `None` when the guard fails or no direct beam resolves. The intensity
maximum is assumed non-negative (intensities are counts), which makes the 5%
region non-empty. -/
theorem c5_trim_values (r : List ℚ) (cfg : TrimConfig) (m : ℚ)
    (hm : pyMax r = some m) (h0 : 0 ≤ m) :
    (∀ db cfg', get_trim_values false db cfg' = .ok (none, cfg'))
    ∧ (∀ cfg', get_trim_values true none cfg' = .ok (none, cfg'))
    ∧ ∃ p0 pn, get_trim_values true (some r) cfg = .ok (some (p0, pn), ⟨p0, pn⟩)
        ∧ p0 < r.length ∧ m * (1 / 20) ≤ r.getD p0 0
        ∧ (∀ j, j < p0 → ¬ m * (1 / 20) ≤ r.getD j 0)
        ∧ ∃ pl, pl < r.length ∧ m * (1 / 20) ≤ r.getD pl 0
            ∧ (∀ j, pl < j → j < r.length → ¬ m * (1 / 20) ≤ r.getD j 0)
            ∧ pn = r.length - pl - 1 := by
  refine ⟨fun db cfg' => rfl, fun cfg' => rfl, ?_⟩
  obtain ⟨⟨iv, hiv⟩, hieq⟩ := List.mem_iff_get.mp (pyMax_mem hm)
  have hcond : m * (1 / 20) ≤ r.getD iv 0 := by
    rw [getD_eq_get_q r iv hiv, hieq]
    linarith
  obtain ⟨⟨p0, hh⟩, ⟨pl, hl⟩⟩ := idxGE_isSome hiv hcond
  obtain ⟨hp0lt, hp0ge, hp0min⟩ := idxGE_head hh
  obtain ⟨hpllt, hplge, hplmax⟩ := idxGE_getLast hl
  refine ⟨p0, r.length - pl - 1, ?_, hp0lt, hp0ge, hp0min, pl, hpllt, hplge, hplmax, rfl⟩
  have hh' := hh
  have hl' := hl
  rw [one_div] at hh' hl'
  simp [get_trim_values, hm, hh', hl']

/-- Witness for C5 at the direct-beam intensity array `[1, 5, 10, 9, 1]`. -/
theorem c5_trim_values_witness :
    pyMax [(1 : ℚ), 5, 10, 9, 1] = some 10 ∧ (0 : ℚ) ≤ 10
    ∧ ∃ p0 pn, get_trim_values true (some [(1 : ℚ), 5, 10, 9, 1]) ⟨7, 7⟩
          = .ok (some (p0, pn), ⟨p0, pn⟩)
        ∧ p0 < [(1 : ℚ), 5, 10, 9, 1].length
        ∧ (10 : ℚ) * (1 / 20) ≤ [(1 : ℚ), 5, 10, 9, 1].getD p0 0
        ∧ (∀ j, j < p0 → ¬ (10 : ℚ) * (1 / 20) ≤ [(1 : ℚ), 5, 10, 9, 1].getD j 0)
        ∧ ∃ pl, pl < [(1 : ℚ), 5, 10, 9, 1].length
            ∧ (10 : ℚ) * (1 / 20) ≤ [(1 : ℚ), 5, 10, 9, 1].getD pl 0
            ∧ (∀ j, pl < j → j < [(1 : ℚ), 5, 10, 9, 1].length →
                ¬ (10 : ℚ) * (1 / 20) ≤ [(1 : ℚ), 5, 10, 9, 1].getD j 0)
            ∧ pn = [(1 : ℚ), 5, 10, 9, 1].length - pl - 1 :=
  ⟨by decide, by decide,
   (c5_trim_values [(1 : ℚ), 5, 10, 9, 1] ⟨7, 7⟩ 10 (by decide) (by decide)).2.2⟩

/-- The spec example `[1, 5, 10, 9, 1]`: all five points reach 5% of the
maximum, so the trim is `(0, 0)`. -/
theorem get_trim_values_example_plateau :
    get_trim_values true (some [(1 : ℚ), 5, 10, 9, 1]) ⟨7, 7⟩
      = .ok (some (0, 0), ⟨0, 0⟩) := by
  have h1 : pyMax [(1 : ℚ), 5, 10, 9, 1] = some 10 := by decide
  have h2 : idxGE ((10 : ℚ) * (1 / 20)) [(1 : ℚ), 5, 10, 9, 1] = [0, 1, 2, 3, 4] := by
    simp only [idxGE]
    norm_num [List.range_succ, List.filter]
  simp only [get_trim_values, h1, h2]
  rfl

/-- The spec example `[0, 0, 10, 0, 0]`: only index 2 reaches 5% of the
maximum, so the trim is `(2, 2)`. -/
theorem get_trim_values_example_spike :
    get_trim_values true (some [(0 : ℚ), 0, 10, 0, 0]) ⟨7, 7⟩
      = .ok (some (2, 2), ⟨2, 2⟩) := by
  have h1 : pyMax [(0 : ℚ), 0, 10, 0, 0] = some 10 := by decide
  have h2 : idxGE ((10 : ℚ) * (1 / 20)) [(0 : ℚ), 0, 10, 0, 0] = [2] := by
    simp only [idxGE]
    norm_num [List.range_succ, List.filter]
  simp only [get_trim_values, h1, h2]
  rfl

/-! ## Overlap stripping -/

/-- Monotone q-arrays: earlier entries are ≤ later entries. -/
theorem pairwise_le_getD {qs : List ℚ} (hs : qs.Pairwise (· ≤ ·)) {i j : Nat}
    (hij : i ≤ j) (hj : j < qs.length) : qs.getD i 0 ≤ qs.getD j 0 := by
  rcases eq_or_lt_of_le hij with h | h
  · subst h; exact le_refl _
  · have hi : i < qs.length := lt_trans h hj
    rw [getD_eq_get_q qs i hi, getD_eq_get_q qs j hj]
    exact List.pairwise_iff_get.mp hs ⟨i, hi⟩ ⟨j, hj⟩ h

/-- One `strip_overlap` iteration: with a monotone q-array and an in-range
cut-first index on the successor, the step succeeds and excludes exactly the
overlapping points. -/
theorem stripStep_spec (item next_ : XSData)
    (hs : item.q.Pairwise (· ≤ ·))
    (hcf : next_.cut_first_n_points < next_.q.length) :
    ∃ item', stripStep item next_ = .ok item'
      ∧ ExcludesExactly item item' (next_.q.getD next_.cut_first_n_points 0) := by
  have hget : next_.q.get? next_.cut_first_n_points
      = some (next_.q.getD next_.cut_first_n_points 0) := by
    rw [List.get?_eq_get hcf, getD_eq_get_q _ _ hcf]
  cases hho : (idxGE (next_.q.getD next_.cut_first_n_points 0) item.q).head? with
  | none =>
    refine ⟨item, ?_, rfl, rfl, ?_, fun _ => rfl⟩
    · simp only [stripStep, hget, hho]
    · rintro ⟨j, hj, hge⟩
      exfalso
      obtain ⟨⟨p0, hp0⟩, -⟩ := idxGE_isSome hj hge
      rw [hho] at hp0
      cases hp0
  | some i =>
    obtain ⟨hilt, hige, himin⟩ := idxGE_head hho
    refine ⟨{ item with cut_last_n_points := item.q.length - i }, ?_, rfl, rfl, ?_, ?_⟩
    · simp only [stripStep, hget, hho]
    · intro _ j hj
      constructor
      · intro hgej
        have hij : i ≤ j := by
          by_contra hc
          exact himin j (by omega) hgej
        simp only
        omega
      · intro hlej
        have hij : i ≤ j := by
          simp only at hlej
          omega
        exact le_trans hige (pairwise_le_getD hs hij hj)
    · intro hnone
      exact absurd hige (hnone i hilt)

/-- The `strip_overlap` loop over adjacent pairs: succeeds under monotone
q-arrays and in-range cut-first indices, preserves length and the last
element, and trims every non-final element against its successor. -/
theorem strip_pairs_spec : ∀ (rl : List XSData),
    (∀ x ∈ rl, x.q.Pairwise (· ≤ ·)) →
    (∀ i, i < rl.length → (rl.getD i xs0).cut_first_n_points < (rl.getD i xs0).q.length) →
    ∃ rl', strip_pairs rl = .ok rl' ∧ rl'.length = rl.length
      ∧ rl'.getLast? = rl.getLast?
      ∧ ∀ i, i + 1 < rl.length →
          ExcludesExactly (rl.getD i xs0) (rl'.getD i xs0)
            ((rl.getD (i + 1) xs0).q.getD ((rl.getD (i + 1) xs0).cut_first_n_points) 0) := by
  intro rl
  induction rl with
  | nil =>
    intro _ _
    exact ⟨[], rfl, rfl, rfl, fun i hi => absurd hi (by simp)⟩
  | cons x rest ih =>
    intro hsort hcf
    cases rest with
    | nil =>
      exact ⟨[x], rfl, rfl, rfl, fun i hi => absurd hi (by simp)⟩
    | cons y rest2 =>
      have hy : y.cut_first_n_points < y.q.length := by
        have := hcf 1 (by simp)
        simpa using this
      obtain ⟨x', hx', hexcl⟩ := stripStep_spec x y (hsort x (by simp)) hy
      have hsort' : ∀ z ∈ y :: rest2, z.q.Pairwise (· ≤ ·) :=
        fun z hz => hsort z (by simp [hz])
      have hcf' : ∀ i, i < (y :: rest2).length →
          ((y :: rest2).getD i xs0).cut_first_n_points
            < ((y :: rest2).getD i xs0).q.length := by
        intro i hi
        have := hcf (i + 1) (by simpa using hi)
        simpa using this
      obtain ⟨t, ht, htlen, htlast, htpair⟩ := ih hsort' hcf'
      refine ⟨x' :: t, ?_, by simpa using htlen, ?_, ?_⟩
      · show ((stripStep x y).bind fun a =>
            (strip_pairs (y :: rest2)).bind fun t' => Except.ok (a :: t')) = _
        rw [hx', ht]
        rfl
      · cases t with
        | nil => simp at htlen
        | cons t0 ts =>
          rw [List.getLast?_cons_cons]
          rw [htlast]
          rw [List.getLast?_cons_cons]
      · intro i hi
        cases i with
        | zero =>
          simpa using hexcl
        | succ i' =>
          have := htpair i' (by simpa using hi)
          simpa using this

/-- Claim C6: with at least two measurements, monotone (angle-ordered)
q-arrays, and configured cut-first indices in range, `strip_overlap` sets, for
every adjacent pair `(i, i+1)`, measurement `i`'s `cut_last_n_points` so that
exactly the points of its q-array that are ≥ the q-value of measurement `i+1`
at its cut-first index are excluded, leaving measurement `i` unchanged when no
such point exists and never touching the last measurement; with fewer than two
measurements the list is returned unchanged. -/
theorem c6_strip_overlap (rl : List XSData)
    (h2 : 2 ≤ rl.length)
    (hsort : ∀ x ∈ rl, x.q.Pairwise (· ≤ ·))
    (hcf : ∀ i, i < rl.length →
      (rl.getD i xs0).cut_first_n_points < (rl.getD i xs0).q.length) :
    (∀ rl₀ : List XSData, rl₀.length < 2 → strip_overlap rl₀ = .ok rl₀)
    ∧ ∃ rl', strip_overlap rl = .ok rl' ∧ rl'.length = rl.length
        ∧ rl'.getLast? = rl.getLast?
        ∧ ∀ i, i + 1 < rl.length →
            ExcludesExactly (rl.getD i xs0) (rl'.getD i xs0)
              ((rl.getD (i + 1) xs0).q.getD ((rl.getD (i + 1) xs0).cut_first_n_points) 0) := by
  refine ⟨fun rl₀ h => by rw [strip_overlap, if_pos h], ?_⟩
  obtain ⟨rl', h⟩ := strip_pairs_spec rl hsort hcf
  refine ⟨rl', ?_, h.2.1, h.2.2.1, h.2.2.2⟩
  rw [strip_overlap, if_neg (by omega), h.1]

/-- Witness for C6 at the spec's overlapping pair of q-arrays (scaled to
integers): `[1, 2, 3, 4, 5]` against `[3, 5, 8]` starting at cut-first 0. -/
theorem c6_strip_overlap_witness :
    (∀ rl₀ : List XSData, rl₀.length < 2 → strip_overlap rl₀ = .ok rl₀)
    ∧ ∃ rl', strip_overlap [(⟨[1, 2, 3, 4, 5], 0, 0⟩ : XSData), ⟨[3, 5, 8], 0, 0⟩]
          = .ok rl'
        ∧ rl'.length = [(⟨[1, 2, 3, 4, 5], 0, 0⟩ : XSData), ⟨[3, 5, 8], 0, 0⟩].length
        ∧ rl'.getLast? = [(⟨[1, 2, 3, 4, 5], 0, 0⟩ : XSData), ⟨[3, 5, 8], 0, 0⟩].getLast?
        ∧ ∀ i, i + 1 < [(⟨[1, 2, 3, 4, 5], 0, 0⟩ : XSData), ⟨[3, 5, 8], 0, 0⟩].length →
            ExcludesExactly
              ([(⟨[1, 2, 3, 4, 5], 0, 0⟩ : XSData), ⟨[3, 5, 8], 0, 0⟩].getD i xs0)
              (rl'.getD i xs0)
              (([(⟨[1, 2, 3, 4, 5], 0, 0⟩ : XSData), ⟨[3, 5, 8], 0, 0⟩].getD (i + 1) xs0).q.getD
                (([(⟨[1, 2, 3, 4, 5], 0, 0⟩ : XSData),
                   ⟨[3, 5, 8], 0, 0⟩].getD (i + 1) xs0).cut_first_n_points) 0) :=
  c6_strip_overlap [(⟨[1, 2, 3, 4, 5], 0, 0⟩ : XSData), ⟨[3, 5, 8], 0, 0⟩]
    (by decide) (by decide) (by decide)
